import Mathlib

/-!
# Verification of the worker-news DOM extraction engine

A shallow embedding of `src/routes/api/dom-api.ts`: the HTMLRewriter-driven
scrapers `storiesGenerator`, `scrapeComments`, `commentsGenerator` and
`threadsGenerator`, together with the record-repair helpers (`fixComment`,
the job reclassification in the stories loop) and the continuation
(`moreLink`) resolution.

The HTMLRewriter is an external collaborator: it delivers element / text-chunk
notifications for the registered selectors in document order.  We model one
extraction pass as a list of such notifications (one inductive constructor per
registered handler, carrying exactly the data the handler reads from the
element or chunk), and each handler body as a state transition.  A handler
that dereferences a still-`undefined` record variable (which in JS would throw
a `TypeError` and abort the pass) is modelled with `Option`: `none` is the
crashed pass.  The rewriter guarantees parent-before-child notification order,
so these crashes cannot occur on real documents; theorems therefore carry the
hypothesis that the pass succeeded.
-/

namespace WorkerNews

/-- JS whitespace (`\s`, `trimStart`, `trim`) restricted to the ASCII forms
that occur in the scraped pages: space, tab, newline, carriage return, form
feed and vertical tab. -/
def jsWhitespaceChar (c : Char) : Bool :=
  c = ' ' || c = '\t' || c = '\n' || c = '\r' || c = '\x0c' || c = '\x0b'

/-- JS `String.prototype.trimStart`. -/
def jsTrimStart (s : String) : String :=
  (s.toList.dropWhile jsWhitespaceChar).asString

/-- JS `String.prototype.trim`. -/
def jsTrim (s : String) : String :=
  ((s.toList.dropWhile jsWhitespaceChar).reverse.dropWhile jsWhitespaceChar).reverse.asString

/-- JS `String.prototype.substr(n)`: the suffix from code unit `n` on. -/
def jsSubstrFrom (s : String) (n : Nat) : String :=
  (s.toList.drop n).asString

/-- Numeric value of a list of decimal digit characters (most significant
first), as accumulated by `parseInt(_, 10)` over its leading digit run. -/
def digitsVal (cs : List Char) : Nat :=
  cs.foldl (fun a c => a * 10 + (c.toNat - 48)) 0

/-- JS `parseInt(s, 10)` as used in the source: every call site is guarded by
`text?.trimStart().match(/^\d/)`, i.e. the first non-whitespace character is a
digit, so no sign handling is needed: the value is the leading digit run after
left-trimming. -/
def jsParseInt (s : String) : Int :=
  Int.ofNat (digitsVal ((s.toList.dropWhile jsWhitespaceChar).takeWhile Char.isDigit))

/-- The guard `text?.trimStart().match(/^\d/)` of the score / comment-count
handlers: the first character after left-trimming is a decimal digit. -/
def startsWithDigit (s : String) : Bool :=
  match s.toList.dropWhile jsWhitespaceChar with
  | c :: _ => c.isDigit
  | [] => false

/-- The `html-escaper` package's `unescape`, applied to continuation hrefs:
replaces the entities `&amp; &#38; &lt; &#60; &gt; &#62; &apos; &#39; &quot;
&#34;` by the characters they denote, scanning left to right. -/
def unescList : List Char → List Char
  | '&' :: 'a' :: 'm' :: 'p' :: ';' :: cs => '&' :: unescList cs
  | '&' :: '#' :: '3' :: '8' :: ';' :: cs => '&' :: unescList cs
  | '&' :: 'l' :: 't' :: ';' :: cs => '<' :: unescList cs
  | '&' :: '#' :: '6' :: '0' :: ';' :: cs => '<' :: unescList cs
  | '&' :: 'g' :: 't' :: ';' :: cs => '>' :: unescList cs
  | '&' :: '#' :: '6' :: '2' :: ';' :: cs => '>' :: unescList cs
  | '&' :: 'a' :: 'p' :: 'o' :: 's' :: ';' :: cs => '\'' :: unescList cs
  | '&' :: '#' :: '3' :: '9' :: ';' :: cs => '\'' :: unescList cs
  | '&' :: 'q' :: 'u' :: 'o' :: 't' :: ';' :: cs => '"' :: unescList cs
  | '&' :: '#' :: '3' :: '4' :: ';' :: cs => '"' :: unescList cs
  | c :: cs => c :: unescList cs
  | [] => []

/-- `unescape` from `html-escaper`, on strings. -/
def unescapeHtml (s : String) : String :=
  (unescList s.toList).asString

/-- `extractId`: the regex `/item\?id=(\d+)/` applied to an href — the digit
run after the first occurrence of `item?id=` that is followed by at least one
digit; `none` models the `NaN` produced when the regex does not match. -/
def extractIdList : List Char → Option Int
  | 'i' :: 't' :: 'e' :: 'm' :: '?' :: 'i' :: 'd' :: '=' :: cs =>
      let ds := cs.takeWhile Char.isDigit
      if ds.isEmpty then extractIdList cs else some (Int.ofNat (digitsVal ds))
  | _ :: cs => extractIdList cs
  | [] => none

/-- `extractId` on strings (the `[href]` selector guards guarantee the
attribute is present at every call site). -/
def extractId (href : String) : Option Int :=
  extractIdList href.toList

/-- `[...].join(' ')`: interpose single spaces. -/
def joinSpace : List String → String
  | [] => ""
  | [a] => a
  | a :: rest => a ++ " " ++ joinSpace rest

/-- `elToTagOpen`: serializes an element-open notification back into opening
tag text, `<tag attr1="v1" attr2="v2">`, attributes in the order given. -/
def elToTagOpen (tag : String) (attrs : List (String × String)) : String :=
  "<" ++ tag ++ " " ++ joinSpace
    (attrs.map (fun a => a.1 ++ "=\"" ++ a.2 ++ "\"")) ++ ">"

/-- JS `x || undefined` on a nullable string (`post.url` assignment in the
stories pass): `null` and the empty string both become `undefined`. -/
def jsOrUndefined (h : Option String) : Option String :=
  match h with
  | some s => if s = "" then none else some s
  | none => none

/-- JS `t || d` on a possibly-undefined string (`post.type = post.type ||
'story'`): `undefined` and the empty string fall back to the default. -/
def jsOrDefault (t : Option String) (d : String) : String :=
  match t with
  | some s => if s = "" then d else s
  | none => d

/-- Split a character list at every occurrence of `<p>`; always returns at
least one (possibly empty) segment. -/
def splitPara : List Char → List (List Char)
  | '<' :: 'p' :: '>' :: cs => [] :: splitPara cs
  | c :: cs =>
      match splitPara cs with
      | [] => [[c]]
      | h :: t => (c :: h) :: t
  | [] => [[]]

/-- Does a paragraph begin with the escaped quote marker `&gt;`? -/
def startsWithGt : List Char → Bool
  | '&' :: 'g' :: 't' :: ';' :: _ => true
  | _ => false

/-- Modelled from the spec: the repository's `blockquotify` helper lives in
`src/routes/api/util`, which is not among the provided sources.  Per the spec
it "convert[s] quoted-reply line markers into blockquote markup" inside the
block-level (`<p>`) wrap: each `<p>`-paragraph whose text begins with the
escaped quote marker `&gt;` is wrapped in `<blockquote>` tags. -/
def blockquotify (s : String) : String :=
  match splitPara s.toList with
  | [] => s
  | first :: paras =>
      (first ++ (paras.map (fun p =>
        if startsWithGt p then
          "<p><blockquote>".toList ++ p ++ "</blockquote>".toList
        else "<p>".toList ++ p)).flatten).asString

/-! ## The record types

`Partial<APost>` / `Partial<AComment>` as the handlers build them: fields the
object literal initializes are carried directly, fields that may still be
`undefined` are `Option`. -/

/-- A partially built post (`Partial<APost>`), covering the fields the
stories and item-page handlers touch.  `id` is `Option` because the item-page
initializer omits it; the stories initializer always sets it. -/
structure APostM where
  id : Option Int
  title : String
  url : Option String
  score : Int
  by_ : String
  timeAgo : String
  descendants : Int
  type : Option String
  story : Option Int
  storyTitle : String
  text : Option String
  parent : Option Int
  quality : Option String
  deriving Repr, DecidableEq

/-- A partially built comment (`Partial<AComment>`) as `scrapeComments`
builds it.  `level` is rational because `Number(width) / 40` is JS real
division. -/
structure ACommentM where
  id : Int
  type : String
  by_ : String
  timeAgo : String
  text : String
  storyTitle : String
  level : Option ℚ
  parent : Option Int
  story : Option Int
  quality : Option String
  deleted : Option Bool
  deriving Repr, DecidableEq

/-! ## The stories pass (`storiesGenerator`) -/

/-- One notification of the stories pass, one constructor per registered
handler of `storiesGenerator`, carrying the data the handler reads. -/
inductive SEvent where
  /-- `.athing[id]` element: seals the pending post, starts a new one with the
  parsed `id` attribute. -/
  | athingStart (id : Int)
  /-- `.athing[id] > .title > a.titlelink` element: `post.url =
  link.getAttribute('href') || undefined` (no `[href]` guard, so nullable). -/
  | titleLinkEl (href : Option String)
  /-- `.athing[id] > .title > a.titlelink` text chunk: `post.title += text`. -/
  | titleText (s : String)
  /-- `.subtext > .score` text chunk: guarded `post.score = parseInt`. -/
  | scoreText (s : String)
  /-- `.subtext > .hnuser` text chunk: `post.by += text`. -/
  | hnuserText (s : String)
  /-- `.subtext > .age` text chunk: `post.timeAgo += text`. -/
  | ageText (s : String)
  /-- `.subtext > a[href^=item]` text chunk: guarded `post.descendants =
  parseInt`. -/
  | commentsText (s : String)
  /-- `.morelink[href]` element: `moreLink.resolve(unescape(href))`. -/
  | moreLinkEl (href : String)
  /-- `.yclinks` element (terminal marker): dispatches the pending post. -/
  | yclinksEl
  deriving Repr, DecidableEq

/-- State of one stories pass: the pending post (`let post` — `none` while
still `undefined`), the posts dispatched to the `data` EventTarget so far,
and the `moreLink` resolvable promise (`none` = still pending; single
assignment, first `resolve` wins). -/
structure SState where
  post : Option APostM
  emitted : List APostM
  more : Option String
  deriving Repr, DecidableEq

/-- Initial stories-pass state. -/
def initS : SState := ⟨none, [], none⟩

/-- The fresh post literal of the `.athing[id]` handler: `{ id, title: '',
score: 0, by: '', timeAgo: '', descendants: 0, story: post?.story }`. -/
def freshPost (id : Int) (prev : Option APostM) : APostM :=
  ⟨some id, "", none, 0, "", "", 0, none, prev.bind (·.story), "", none, none, none⟩

/-- One handler invocation of the stories pass.  `none` models the JS
`TypeError` of a field handler firing while `post` is still `undefined`. -/
def stepStories (st : SState) (e : SEvent) : Option SState :=
  match e with
  | .athingStart id =>
      some { st with
        emitted := match st.post with
          | some p => st.emitted ++ [p]
          | none => st.emitted,
        post := some (freshPost id st.post) }
  | .titleLinkEl href =>
      st.post.map (fun p => { st with post := some { p with url := jsOrUndefined href } })
  | .titleText s =>
      st.post.map (fun p => { st with post := some { p with title := p.title ++ s } })
  | .scoreText s =>
      if startsWithDigit s then
        st.post.map (fun p => { st with post := some { p with score := jsParseInt s } })
      else some st
  | .hnuserText s =>
      st.post.map (fun p => { st with post := some { p with by_ := p.by_ ++ s } })
  | .ageText s =>
      st.post.map (fun p => { st with post := some { p with timeAgo := p.timeAgo ++ s } })
  | .commentsText s =>
      if startsWithDigit s then
        st.post.map (fun p => { st with post := some { p with descendants := jsParseInt s } })
      else some st
  | .moreLinkEl href =>
      some { st with more := st.more <|> some (unescapeHtml href) }
  | .yclinksEl =>
      some { st with
        emitted := match st.post with
          | some p => st.emitted ++ [p]
          | none => st.emitted }

/-- Run the stories pass from a given state over a notification list. -/
def runStoriesFrom (st : SState) : List SEvent → Option SState
  | [] => some st
  | e :: rest => (stepStories st e).bind (fun st1 => runStoriesFrom st1 rest)

/-- Run a whole stories pass. -/
def runStories (evs : List SEvent) : Option SState :=
  runStoriesFrom initS evs

/-- The consumer-side repair of the stories loop: `post.type = post.type ||
'story'; if (!post.by) post.type = 'job'`. -/
def fixupPost (p : APostM) : APostM :=
  let p' : APostM := { p with type := some (jsOrDefault p.type "story") }
  if p.by_ = "" then { p' with type := some "job" } else p'

/-- One value yielded by the stories generator: a repaired post, or the final
continuation string. -/
inductive SOut where
  | post (p : APostM)
  | more (s : String)
  deriving Repr, DecidableEq

/-- The full observable output of `storiesGenerator`: the dispatched posts in
order, each repaired, followed by the awaited `moreLink` value — the resolved
continuation if the anchor fired, else the fallback `moreLink.resolve('')`
that runs once the record loop is exhausted. -/
def storiesGenerator (evs : List SEvent) : Option (List SOut) :=
  (runStories evs).map (fun st =>
    st.emitted.map (fun p => SOut.post (fixupPost p)) ++ [SOut.more (st.more.getD "")])

/-- The href of the first `.morelink[href]` notification of a pass, if any. -/
def firstMoreHref : List SEvent → Option String
  | [] => none
  | .moreLinkEl h :: _ => some h
  | _ :: rest => firstMoreHref rest

/-! ## The shared comment scraper (`scrapeComments`) -/

/-- `Number(el.getAttribute('width')) / 40` of the indentation handler: JS
real division (exact on the dyadic values that arise), NOT integer
division. -/
def commentLevel (width : Int) : ℚ :=
  (width : ℚ) / 40

/-- One notification of the comment scraper, one constructor per handler
registered by `scrapeComments` (the selector prefix only scopes matching and
does not change handler behaviour). -/
inductive CommEvent where
  /-- `.athing.comtr[id]` element: seals the pending comment, starts a new
  one with the parsed `id` attribute. -/
  | comtrStart (id : Int)
  /-- `.ind > img[src="s.gif"][width]` element: `comment.level =
  Number(width) / 40`. -/
  | indWidthEl (width : Int)
  /-- `.hnuser` text chunk: `comment.by += text`. -/
  | hnuserText (s : String)
  /-- `.age` text chunk: `comment.timeAgo += text`. -/
  | ageText (s : String)
  /-- `.par > a[href]` element: `comment.parent = extractId(href)`. -/
  | parLinkEl (href : String)
  /-- `.storyon > a[href]` element: `comment.story = extractId(href)`. -/
  | storyLinkEl (href : String)
  /-- `.storyon > a[href]` text chunk: `comment.storyTitle += text`. -/
  | storyLinkText (s : String)
  /-- `.commtext` element: `comment.quality =
  class?.substr('commtext '.length).trim()`. -/
  | commtextEl (cls : Option String)
  /-- `.commtext` text chunk: `comment.text += chunk.text`. -/
  | commtextText (s : String)
  /-- `.commtext *` element open: `comment.text += elToTagOpen(el)`. -/
  | commtextChildOpen (tag : String) (attrs : List (String × String))
  /-- `.commtext *` end tag (via `el.onEndTag`): `comment.text += '</' + name
  + '>'`. -/
  | commtextChildClose (tag : String)
  /-- `.comment .reply` element: `el.remove()` — no scraper state change. -/
  | replyEl
  /-- `.yclinks` element (terminal marker): dispatches the pending comment. -/
  | yclinksEl
  deriving Repr, DecidableEq

/-- The fresh comment literal of the `.athing.comtr[id]` handler: `{ id,
type: 'comment', by: '', timeAgo: '', text: '', storyTitle: '' }`. -/
def freshComment (id : Int) : ACommentM :=
  ⟨id, "comment", "", "", "", "", none, none, none, none, none⟩

/-- One handler invocation of the comment scraper, acting on the pending
comment (`none` while still `undefined`); returns the new pending comment and
the comments dispatched by this invocation (`none` models the JS `TypeError`
of a field handler firing before any comment started). -/
def stepComm (c : Option ACommentM) (e : CommEvent) :
    Option (Option ACommentM × List ACommentM) :=
  match e with
  | .comtrStart id =>
      some (some (freshComment id), match c with | some cm => [cm] | none => [])
  | .indWidthEl w =>
      c.map (fun cm => (some { cm with level := some (commentLevel w) }, []))
  | .hnuserText s =>
      c.map (fun cm => (some { cm with by_ := cm.by_ ++ s }, []))
  | .ageText s =>
      c.map (fun cm => (some { cm with timeAgo := cm.timeAgo ++ s }, []))
  | .parLinkEl href =>
      c.map (fun cm => (some { cm with parent := extractId href }, []))
  | .storyLinkEl href =>
      c.map (fun cm => (some { cm with story := extractId href }, []))
  | .storyLinkText s =>
      c.map (fun cm => (some { cm with storyTitle := cm.storyTitle ++ s }, []))
  | .commtextEl cls =>
      c.map (fun cm =>
        (some { cm with quality := cls.map (fun s => jsTrim (jsSubstrFrom s 9)) }, []))
  | .commtextText s =>
      c.map (fun cm => (some { cm with text := cm.text ++ s }, []))
  | .commtextChildOpen tag attrs =>
      c.map (fun cm => (some { cm with text := cm.text ++ elToTagOpen tag attrs }, []))
  | .commtextChildClose tag =>
      c.map (fun cm => (some { cm with text := cm.text ++ "</" ++ tag ++ ">" }, []))
  | .replyEl => some (c, [])
  | .yclinksEl =>
      some (c, match c with | some cm => [cm] | none => [])

/-- `fixComment`: non-empty bodies are normalized (`blockquotify('<p>' +
text)`), empty / whitespace-only bodies are replaced by the fixed
placeholder `' [flagged] '` with `deleted = true`. -/
def fixComment (c : ACommentM) : ACommentM :=
  if jsTrim c.text ≠ "" then { c with text := blockquotify ("<p>" ++ c.text) }
  else { c with deleted := some true, text := " [flagged] " }

/-! ## The threads pass (`threadsGenerator`) -/

/-- One notification of the threads pass: the comment scraper's handlers
(prefix `''`) plus the `a.morelink[href][rel="next"]` continuation anchor. -/
inductive TEvent where
  | comm (e : CommEvent)
  | moreLinkEl (href : String)
  deriving Repr, DecidableEq

/-- State of one threads pass: pending comment, dispatched comments, and the
`moreLink` resolvable promise. -/
structure TState where
  comment : Option ACommentM
  dispatched : List ACommentM
  more : Option String
  deriving Repr, DecidableEq

/-- Initial threads-pass state. -/
def initT : TState := ⟨none, [], none⟩

/-- One handler invocation of the threads pass. -/
def stepThreads (st : TState) (e : TEvent) : Option TState :=
  match e with
  | .comm ce =>
      (stepComm st.comment ce).map (fun r =>
        { st with comment := r.1, dispatched := st.dispatched ++ r.2 })
  | .moreLinkEl href =>
      some { st with more := st.more <|> some (unescapeHtml href) }

/-- Run the threads pass from a given state. -/
def runThreadsFrom (st : TState) : List TEvent → Option TState
  | [] => some st
  | e :: rest => (stepThreads st e).bind (fun st1 => runThreadsFrom st1 rest)

/-- Run a whole threads pass. -/
def runThreads (evs : List TEvent) : Option TState :=
  runThreadsFrom initT evs

/-- One value yielded by the threads generator. -/
inductive TOut where
  | comm (c : ACommentM)
  | more (s : String)
  deriving Repr, DecidableEq

/-- The full observable output of `threadsGenerator`: the dispatched comments
in order, each repaired by `fixComment`, followed by the awaited `moreLink`
value (the resolved continuation, or `''` from the post-loop fallback). -/
def threadsGenerator (evs : List TEvent) : Option (List TOut) :=
  (runThreads evs).map (fun st =>
    st.dispatched.map (fun c => TOut.comm (fixComment c)) ++ [TOut.more (st.more.getD "")])

/-- The href of the first `a.morelink[href][rel="next"]` notification of a
threads pass, if any. -/
def firstMoreHrefT : List TEvent → Option String
  | [] => none
  | .moreLinkEl h :: _ => some h
  | _ :: rest => firstMoreHrefT rest

/-! ## The item page pass (`commentsGenerator`) -/

/-- One notification of the item-page pass, one constructor per handler
registered by `commentsGenerator`, plus the comment scraper registered with
prefix `.comment-tree`. -/
inductive IEvent where
  /-- `.fatitem .athing[id]` element: `post.id = Number(id)`. -/
  | fatAthingEl (id : Int)
  /-- `.fatitem .athing[id] > .title > a.titlelink` element: `post.url =
  unescape(href ?? '')`. -/
  | fatTitleLinkEl (href : Option String)
  /-- title text chunk: `post.title += text`. -/
  | fatTitleText (s : String)
  /-- `.fatitem .subtext > .score` text chunk: guarded `post.score =
  parseInt`. -/
  | fatScoreText (s : String)
  /-- `.fatitem .subtext > .hnuser` text chunk: `post.by += text`. -/
  | fatSubHnuserText (s : String)
  /-- `.fatitem .subtext > .age` text chunk: `post.timeAgo += text`. -/
  | fatSubAgeText (s : String)
  /-- `.fatitem .subtext > a[href^=item]` text chunk: guarded
  `post.descendants = parseInt`. -/
  | fatItemLinkText (s : String)
  /-- `.fatitem tr:nth-child(4) > td:nth-child(2)` text chunk: `post.text +=
  text`. -/
  | fatTextText (s : String)
  /-- `.fatitem tr:nth-child(4) > td:nth-child(2) *:not(form) *` element
  open: `post.text += elToTagOpen(el)`. -/
  | fatTextChildOpen (tag : String) (attrs : List (String × String))
  /-- end tag of the above: `post.text += '</' + name + '>'`. -/
  | fatTextChildClose (tag : String)
  /-- `.fatitem .comhead > .hnuser` text chunk: `post.by += text`. -/
  | fatComHnuserText (s : String)
  /-- `.fatitem .comhead > .age` text chunk: `post.timeAgo += text`. -/
  | fatComAgeText (s : String)
  /-- `.fatitem .comhead > .navs > a[href^="item"]` element: `post.parent =
  extractId(href)`. -/
  | fatNavsParentEl (href : String)
  /-- `.fatitem .comhead > .onstory > a[href]` element: `post.story =
  extractId(href)`. -/
  | fatOnstoryEl (href : String)
  /-- `.fatitem .comhead > .onstory > a[href]` text chunk: `post.storyTitle
  += text`. -/
  | fatOnstoryText (s : String)
  /-- `.fatitem .commtext` element: `post.type = 'comment'; post.quality =
  class?.substr(9).trim()`. -/
  | fatCommtextEl (cls : Option String)
  /-- `.fatitem .commtext` text chunk: `post.text += chunk.text`. -/
  | fatCommtextText (s : String)
  /-- `.fatitem .commtext *` element open: `post.text += elToTagOpen(el)`. -/
  | fatCommtextChildOpen (tag : String) (attrs : List (String × String))
  /-- end tag of the above. -/
  | fatCommtextChildClose (tag : String)
  /-- `.comment-tree` element: dispatches the header `post` object. -/
  | commentTreeEl
  /-- `a.morelink[href][rel="next"]` element: `moreLink.resolve(unescape)`. -/
  | moreLinkEl (href : String)
  /-- a `scrapeComments` handler (registered with prefix `.comment-tree`). -/
  | comm (e : CommEvent)
  deriving Repr, DecidableEq

/-- One event dispatched on the item-page `data` EventTarget: the header
`post` object (dispatched by the `.comment-tree` handler) or a sealed
comment. -/
inductive DataEvent where
  | header
  | comm (c : ACommentM)
  deriving Repr, DecidableEq

/-- State of one item-page pass: the header `post` under construction (its
literal initializes `title/score/by/timeAgo/descendants/text/storyTitle`),
the pending comment, the `data` dispatch sequence, and the `moreLink`
promise. -/
structure IState where
  post : APostM
  comment : Option ACommentM
  dispatched : List DataEvent
  more : Option String
  deriving Repr, DecidableEq

/-- The initial item-page post literal: `{ title: '', score: 0, by: '',
timeAgo: '', descendants: 0, text: '', storyTitle: '' }`. -/
def initItemPost : APostM :=
  ⟨none, "", none, 0, "", "", 0, none, none, "", some "", none, none⟩

/-- Initial item-page pass state. -/
def initI : IState := ⟨initItemPost, none, [], none⟩

/-- One handler invocation of the item-page pass. -/
def stepItem (st : IState) (e : IEvent) : Option IState :=
  match e with
  | .fatAthingEl id => some { st with post := { st.post with id := some id } }
  | .fatTitleLinkEl href =>
      some { st with post := { st.post with url := some (unescapeHtml (href.getD "")) } }
  | .fatTitleText s =>
      some { st with post := { st.post with title := st.post.title ++ s } }
  | .fatScoreText s =>
      if startsWithDigit s then
        some { st with post := { st.post with score := jsParseInt s } }
      else some st
  | .fatSubHnuserText s =>
      some { st with post := { st.post with by_ := st.post.by_ ++ s } }
  | .fatSubAgeText s =>
      some { st with post := { st.post with timeAgo := st.post.timeAgo ++ s } }
  | .fatItemLinkText s =>
      if startsWithDigit s then
        some { st with post := { st.post with descendants := jsParseInt s } }
      else some st
  | .fatTextText s =>
      some { st with post := { st.post with text := some (st.post.text.getD "" ++ s) } }
  | .fatTextChildOpen tag attrs =>
      some { st with post :=
        { st.post with text := some (st.post.text.getD "" ++ elToTagOpen tag attrs) } }
  | .fatTextChildClose tag =>
      some { st with post :=
        { st.post with text := some (st.post.text.getD "" ++ "</" ++ tag ++ ">") } }
  | .fatComHnuserText s =>
      some { st with post := { st.post with by_ := st.post.by_ ++ s } }
  | .fatComAgeText s =>
      some { st with post := { st.post with timeAgo := st.post.timeAgo ++ s } }
  | .fatNavsParentEl href =>
      some { st with post := { st.post with parent := extractId href } }
  | .fatOnstoryEl href =>
      some { st with post := { st.post with story := extractId href } }
  | .fatOnstoryText s =>
      some { st with post := { st.post with storyTitle := st.post.storyTitle ++ s } }
  | .fatCommtextEl cls =>
      some { st with post := { st.post with
        type := some "comment",
        quality := cls.map (fun s => jsTrim (jsSubstrFrom s 9)) } }
  | .fatCommtextText s =>
      some { st with post := { st.post with text := some (st.post.text.getD "" ++ s) } }
  | .fatCommtextChildOpen tag attrs =>
      some { st with post :=
        { st.post with text := some (st.post.text.getD "" ++ elToTagOpen tag attrs) } }
  | .fatCommtextChildClose tag =>
      some { st with post :=
        { st.post with text := some (st.post.text.getD "" ++ "</" ++ tag ++ ">") } }
  | .commentTreeEl =>
      some { st with dispatched := st.dispatched ++ [DataEvent.header] }
  | .moreLinkEl href =>
      some { st with more := st.more <|> some (unescapeHtml href) }
  | .comm ce =>
      (stepComm st.comment ce).map (fun r =>
        { st with comment := r.1,
                  dispatched := st.dispatched ++ r.2.map DataEvent.comm })

/-- Run the item-page pass from a given state. -/
def runItemFrom (st : IState) : List IEvent → Option IState
  | [] => some st
  | e :: rest => (stepItem st e).bind (fun st1 => runItemFrom st1 rest)

/-- Run a whole item-page pass. -/
def runItem (evs : List IEvent) : Option IState :=
  runItemFrom initI evs

/-- The result object `commentsGenerator` returns: the header post (with its
body fixed), the `kids` sequence, and the raced `moreLink` value. -/
structure ItemOut where
  post : APostM
  kids : List ACommentM
  more : String
  deriving Repr, DecidableEq

/-- The header body fix: `if (post.text?.trim()) post.text =
blockquotify('<p>' + post.text); else delete post.text`. -/
def fixPostText (p : APostM) : APostM :=
  if jsTrim (p.text.getD "") ≠ "" then
    { p with text := some (blockquotify ("<p>" ++ p.text.getD "")) }
  else { p with text := none }

/-- One element of `post.kids`: `comment.story = post.id; return
fixComment(comment)`. -/
def fixKid (postId : Option Int) (c : ACommentM) : ACommentM :=
  fixComment { c with story := postId }

/-- The kid mapper applied to one remaining `data` event.  A `header` event
here (several `.comment-tree` matches) would hand the post object itself to
the comment mapper; the model rejects that degenerate shape with `none`. -/
def kidOfData (postId : Option Int) : DataEvent → Option ACommentM
  | .comm c => some (fixKid postId c)
  | .header => none

/-- The kid mapper over the remaining `data` events, in order. -/
def kidsOfDispatched (postId : Option Int) : List DataEvent → Option (List ACommentM)
  | [] => some []
  | d :: ds =>
      (kidOfData postId d).bind (fun k =>
        (kidsOfDispatched postId ds).map (fun ks => k :: ks))

/-- The observable result of `commentsGenerator`: the consumer awaits the
first `data` event (the header, by document order), then maps the remaining
events into `post.kids`; `post.moreLink` races the resolved anchor against
completion-then-`''`, so it is the first anchor's unescaped href, else `''`. -/
def commentsGenerator (evs : List IEvent) : Option ItemOut :=
  (runItem evs).bind (fun st =>
    (kidsOfDispatched st.post.id (st.dispatched.drop 1)).map (fun kids =>
      ⟨fixPostText st.post, kids, st.more.getD ""⟩))

/-- The href of the first `a.morelink[href][rel="next"]` notification of an
item-page pass, if any. -/
def firstMoreHrefI : List IEvent → Option String
  | [] => none
  | .moreLinkEl h :: _ => some h
  | _ :: rest => firstMoreHrefI rest

/-! ## The failure path

Every pass drives the rewriter with `consume(r2h(rewriter).transform(response))
.then(() => iter.return())` — a one-argument `then`.  `iter.return()` (which
closes the consumer's async iterator) therefore runs only when the transform
promise FULFILS; when it rejects (parse or network failure) nothing closes the
iterator and no error event is dispatched on the `data` target, so the
consumer's next pull suspends forever. -/

/-- What the consumer observes after the record sequence: a clean close, an
error sentinel, or an unresolved (hanging) pull. -/
inductive Terminal where
  | closed
  | errorSentinel
  | hang
  deriving Repr, DecidableEq

/-- The termination the `.then(() => iter.return())` wiring delivers: close on
fulfilment, an eternally pending pull on rejection — never an error
sentinel. -/
def passTerminal (failed : Bool) : Terminal :=
  if failed then Terminal.hang else Terminal.closed

/-- A stories pass whose transform settles after delivering `evs` (fulfilled
if `failed = false`, rejected otherwise): the records the consumer receives
are exactly those dispatched before settlement — the record still under
construction is in neither case emitted — followed by the terminal
observation. -/
def storiesPassOutcome (evs : List SEvent) (failed : Bool) :
    Option (List APostM × Terminal) :=
  (runStories evs).map (fun st => (st.emitted.map fixupPost, passTerminal failed))

/-! ## Run lemmas -/

theorem stepStories_more_eq {st st' : SState} {e : SEvent} (h : stepStories st e = some st')
    (hne : ∀ href, e ≠ SEvent.moreLinkEl href) : st'.more = st.more := by
  cases e with
  | athingStart id =>
      simp only [stepStories, Option.some.injEq] at h; subst h; rfl
  | titleLinkEl href =>
      simp only [stepStories, Option.map_eq_some'] at h
      obtain ⟨p, _, rfl⟩ := h; rfl
  | titleText s =>
      simp only [stepStories, Option.map_eq_some'] at h
      obtain ⟨p, _, rfl⟩ := h; rfl
  | scoreText s =>
      simp only [stepStories] at h
      split_ifs at h
      · simp only [Option.map_eq_some'] at h
        obtain ⟨p, _, rfl⟩ := h; rfl
      · simp only [Option.some.injEq] at h; subst h; rfl
  | hnuserText s =>
      simp only [stepStories, Option.map_eq_some'] at h
      obtain ⟨p, _, rfl⟩ := h; rfl
  | ageText s =>
      simp only [stepStories, Option.map_eq_some'] at h
      obtain ⟨p, _, rfl⟩ := h; rfl
  | commentsText s =>
      simp only [stepStories] at h
      split_ifs at h
      · simp only [Option.map_eq_some'] at h
        obtain ⟨p, _, rfl⟩ := h; rfl
      · simp only [Option.some.injEq] at h; subst h; rfl
  | moreLinkEl href => exact absurd rfl (hne href)
  | yclinksEl =>
      simp only [stepStories, Option.some.injEq] at h; subst h; rfl

theorem runStoriesFrom_more : ∀ (evs : List SEvent) (st st' : SState),
    runStoriesFrom st evs = some st' →
    st'.more = (st.more <|> (firstMoreHref evs).map unescapeHtml) := by
  intro evs
  induction evs with
  | nil =>
      intro st st' h
      simp only [runStoriesFrom, Option.some.injEq] at h
      subst h
      simp [firstMoreHref]
  | cons e rest ih =>
      intro st st' h
      simp only [runStoriesFrom, Option.bind_eq_some] at h
      obtain ⟨st1, hs, hrest⟩ := h
      have h1 := ih st1 st' hrest
      cases e
      case moreLinkEl href =>
        simp only [stepStories, Option.some.injEq] at hs
        subst hs
        rw [h1]
        simp only [firstMoreHref, Option.map_some']
        cases st.more <;> simp
      all_goals
        rw [h1, stepStories_more_eq hs (by intro href hx; cases hx)]
        simp [firstMoreHref]

theorem runStoriesFrom_append (a b : List SEvent) : ∀ st : SState,
    runStoriesFrom st (a ++ b) =
      (runStoriesFrom st a).bind (fun st1 => runStoriesFrom st1 b) := by
  induction a with
  | nil => intro st; rfl
  | cons e rest ih =>
      intro st
      simp only [List.cons_append, runStoriesFrom, Option.bind_assoc]
      congr 1
      funext st1
      exact ih st1

theorem stepThreads_more_eq {st st' : TState} {e : TEvent} (h : stepThreads st e = some st')
    (hne : ∀ href, e ≠ TEvent.moreLinkEl href) : st'.more = st.more := by
  cases e with
  | comm ce =>
      simp only [stepThreads, Option.map_eq_some'] at h
      obtain ⟨r, _, rfl⟩ := h; rfl
  | moreLinkEl href => exact absurd rfl (hne href)

theorem runThreadsFrom_more : ∀ (evs : List TEvent) (st st' : TState),
    runThreadsFrom st evs = some st' →
    st'.more = (st.more <|> (firstMoreHrefT evs).map unescapeHtml) := by
  intro evs
  induction evs with
  | nil =>
      intro st st' h
      simp only [runThreadsFrom, Option.some.injEq] at h
      subst h
      simp [firstMoreHrefT]
  | cons e rest ih =>
      intro st st' h
      simp only [runThreadsFrom, Option.bind_eq_some] at h
      obtain ⟨st1, hs, hrest⟩ := h
      have h1 := ih st1 st' hrest
      cases e
      case moreLinkEl href =>
        simp only [stepThreads, Option.some.injEq] at hs
        subst hs
        rw [h1]
        simp only [firstMoreHrefT, Option.map_some']
        cases st.more <;> simp
      case comm ce =>
        rw [h1, stepThreads_more_eq hs (by intro href hx; cases hx)]
        simp [firstMoreHrefT]

/-! ## C1: exactly one continuation value, the final yield, resolving to the
anchor's unescaped href or to the empty string -/

/-- C1: For every extraction pass (listings or threads) that runs to stream
completion, the generator's output is the record sequence followed by exactly
one final continuation value: the unescaped href of the first matching
next-page anchor if one fired during the pass, and the empty string otherwise
(the post-loop `moreLink.resolve('')` fallback, so resolution cannot hang on a
final page). -/
theorem continuation_exactly_once :
    (∀ (evs : List SEvent) (st : SState), runStories evs = some st →
      ∃ recs, storiesGenerator evs =
          some (recs ++ [SOut.more (((firstMoreHref evs).map unescapeHtml).getD "")]) ∧
        ∀ r ∈ recs, ∃ p, r = SOut.post p) ∧
    (∀ (evs : List TEvent) (st : TState), runThreads evs = some st →
      ∃ recs, threadsGenerator evs =
          some (recs ++ [TOut.more (((firstMoreHrefT evs).map unescapeHtml).getD "")]) ∧
        ∀ r ∈ recs, ∃ c, r = TOut.comm c) := by
  constructor
  · intro evs st h
    have hm := runStoriesFrom_more evs initS st h
    simp only [initS] at hm
    rw [Option.none_orElse] at hm
    refine ⟨st.emitted.map (fun p => SOut.post (fixupPost p)), ?_, ?_⟩
    · simp only [storiesGenerator, h, Option.map_some', hm]
    · intro r hr
      simp only [List.mem_map] at hr
      obtain ⟨p, _, rfl⟩ := hr
      exact ⟨fixupPost p, rfl⟩
  · intro evs st h
    have hm := runThreadsFrom_more evs initT st h
    simp only [initT] at hm
    rw [Option.none_orElse] at hm
    refine ⟨st.dispatched.map (fun c => TOut.comm (fixComment c)), ?_, ?_⟩
    · simp only [threadsGenerator, h, Option.map_some', hm]
    · intro r hr
      simp only [List.mem_map] at hr
      obtain ⟨c, _, rfl⟩ := hr
      exact ⟨fixComment c, rfl⟩

/-- Witness for `continuation_exactly_once` at concrete passes: a listings
pass whose only notification is a continuation anchor with reference
`x?next=9`, and an empty threads pass. -/
theorem continuation_exactly_once_witness :
    (∃ recs, storiesGenerator [SEvent.moreLinkEl "x?next=9"] =
        some (recs ++ [SOut.more (((firstMoreHref [SEvent.moreLinkEl "x?next=9"]).map
          unescapeHtml).getD "")]) ∧
      ∀ r ∈ recs, ∃ p, r = SOut.post p) ∧
    (∃ recs, threadsGenerator ([] : List TEvent) =
        some (recs ++ [TOut.more (((firstMoreHrefT []).map unescapeHtml).getD "")]) ∧
      ∀ r ∈ recs, ∃ c, r = TOut.comm c) :=
  ⟨continuation_exactly_once.1 _ ⟨none, [], some (unescapeHtml "x?next=9")⟩ rfl,
   continuation_exactly_once.2 _ initT rfl⟩

/-! ## C3: chunk-splitting invariance of the accumulated fields

`title`, `by`, `timeAgo` and the comment body are accumulated with `+=`, but
the `.subtext > .score` and `.subtext > a[href^=item]` handlers ASSIGN
`parseInt(text, 10)` of each digit-leading chunk (the source itself carries
`// FIXME: concatenate text before parseInt jtbs..`): an earlier chunk's
contribution is dropped. -/

/-- C3: evaluating the stories pass at the failing input — the score text
region delivered as the two chunks `"1"` then `"2"` leaves `score = 2`,
whereas the claimed chunk-splitting invariance demands the value of the
concatenation `"12"`, namely `12` (which the single-chunk delivery indeed
produces). -/
theorem score_chunk_assignment_bug :
    (runStories [SEvent.athingStart 42, SEvent.scoreText "1", SEvent.scoreText "2"]).map
        (fun st => st.post.map (fun p => p.score)) = some (some 2) ∧
    (runStories [SEvent.athingStart 42, SEvent.scoreText "12"]).map
        (fun st => st.post.map (fun p => p.score)) = some (some 12) ∧
    jsParseInt "12" = 12 ∧ (2 : Int) ≠ 12 := by
  refine ⟨by decide, by decide, by decide, by decide⟩

/-! ## C4: a record pending when the stream completes -/

/-- C4 counterexample: a truncated page that starts a record (`.athing[id]`
fires) and then ends without the terminal `.yclinks` marker.  The run
completes with the record still pending (`post.isSome`), yet the generator's
output contains no record at all — only the empty continuation — refuting
the claim that the pending record is sealed and emitted at stream
completion. -/
theorem truncated_pending_dropped_cx :
    storiesGenerator [SEvent.athingStart 1] = some [SOut.more ""] ∧
    (runStories [SEvent.athingStart 1]).map (fun st => st.post.isSome) = some true := by
  refine ⟨by decide, by decide⟩

/-- C4 amended: a record still pending when the stream completes is
discarded, not emitted — the output lists exactly the records sealed by a
subsequent record start or by the terminal marker; appending the terminal
`.yclinks` notification to the same stream is what seals the pending
record. -/
theorem pending_requires_seal (evs : List SEvent) (st : SState) (p : APostM)
    (h : runStories evs = some st) (hp : st.post = some p) :
    storiesGenerator evs =
      some (st.emitted.map (fun q => SOut.post (fixupPost q)) ++
        [SOut.more (st.more.getD "")]) ∧
    runStories (evs ++ [SEvent.yclinksEl]) =
      some ⟨some p, st.emitted ++ [p], st.more⟩ := by
  constructor
  · simp only [storiesGenerator, h, Option.map_some']
  · rw [runStories] at h ⊢
    rw [runStoriesFrom_append, h]
    obtain ⟨po, em, mo⟩ := st
    simp only at hp
    subst hp
    simp [runStoriesFrom, stepStories]

/-- Witness for `pending_requires_seal`: the truncated single-record pass. -/
theorem pending_requires_seal_witness :
    storiesGenerator [SEvent.athingStart 1] = some [SOut.more ""] ∧
    runStories [SEvent.athingStart 1, SEvent.yclinksEl] =
      some ⟨some (freshPost 1 none), [freshPost 1 none], none⟩ :=
  pending_requires_seal [SEvent.athingStart 1]
    ⟨some (freshPost 1 none), [], none⟩ (freshPost 1 none) rfl rfl

/-! ## C5: what the consumer observes on a parse / network failure -/

/-- C5 counterexample: a pass that fails after starting (but not sealing) a
record.  The consumer receives no records (the partial record is indeed
discarded) but its next pull yields no error sentinel either: the one-argument
`then` never closes the iterator, so the pull suspends forever. -/
theorem failure_hangs_cx :
    storiesPassOutcome [SEvent.athingStart 1, SEvent.titleText "a"] true =
      some ([], Terminal.hang) ∧
    Terminal.hang ≠ Terminal.errorSentinel := by
  refine ⟨by decide, by decide⟩

/-- C5 amended: on a parse/network failure the record under construction is
discarded (the consumer receives exactly the records sealed before the
failure) — but no error sentinel is ever delivered: the consumer's next pull
remains pending forever, because `consume(...).then(() => iter.return())`
closes the iterator only on fulfilment. -/
theorem failure_discards_and_hangs (evs : List SEvent) (st : SState)
    (h : runStories evs = some st) :
    storiesPassOutcome evs true = some (st.emitted.map fixupPost, Terminal.hang) ∧
    passTerminal true = Terminal.hang ∧
    passTerminal true ≠ Terminal.errorSentinel := by
  refine ⟨?_, rfl, by decide⟩
  simp only [storiesPassOutcome, h, Option.map_some', passTerminal, if_true]

/-- Witness for `failure_discards_and_hangs` at a concrete failing pass. -/
theorem failure_discards_and_hangs_witness :
    storiesPassOutcome [SEvent.athingStart 1, SEvent.titleText "a"] true =
      some (([] : List APostM).map fixupPost, Terminal.hang) ∧
    passTerminal true = Terminal.hang ∧
    passTerminal true ≠ Terminal.errorSentinel :=
  failure_discards_and_hangs [SEvent.athingStart 1, SEvent.titleText "a"]
    ⟨some { freshPost 1 none with title := "a" }, [], none⟩ rfl

/-! ## C6: comment depth -/

/-- C6 counterexample: `comment.level = Number(width) / 40` is JS real
division, not integer division: the indentation handler at `width = 20`
stores the level `1/2`, which is no integer at all (integer division would
give `0`). -/
theorem depth_fractional_cx :
    stepComm (some (freshComment 7)) (CommEvent.indWidthEl 20) =
      some (some { freshComment 7 with level := some (commentLevel 20) }, []) ∧
    commentLevel 20 = 1 / 2 ∧
    (∀ z : ℤ, (z : ℚ) ≠ commentLevel 20) ∧
    (20 / 40 : ℤ) = 0 := by
  refine ⟨rfl, by norm_num [commentLevel], ?_, by norm_num⟩
  intro z hz
  rw [show commentLevel 20 = 1 / 2 by norm_num [commentLevel]] at hz
  have h2 : ((z * 2 : ℤ) : ℚ) = ((1 : ℤ) : ℚ) := by
    push_cast
    rw [hz]
    norm_num
  have h3 : z * 2 = 1 := by exact_mod_cast h2
  omega

/-- C6 amended: the level is the exact quotient `width / 40`; whenever the
indentation-width attribute is a whole multiple `40 * d` of the unit width —
the source site's layout convention — the computed level is exactly the
non-negative integer `d`, with no rounding involved. -/
theorem depth_roundtrip (d : ℕ) :
    commentLevel (40 * d) = (d : ℚ) ∧ 0 ≤ commentLevel (40 * d) := by
  have hd : commentLevel (40 * d) = (d : ℚ) := by
    unfold commentLevel
    push_cast
    rw [mul_comm]
    exact mul_div_cancel_right₀ _ (by norm_num)
  exact ⟨hd, by rw [hd]; positivity⟩

/-! ## C8: job reclassification of listings without an author -/

/-- C8: every listing a listings pass seals is repaired at yield time: an
empty accumulated author forces `type = job`; a non-empty author leaves the
record with its original kind (its scraped `type`, defaulted to `story`), and
the repaired record is what the generator yields. -/
theorem empty_author_is_job (evs : List SEvent) (st : SState)
    (h : runStories evs = some st) :
    ∀ p ∈ st.emitted,
      (p.by_ = "" → (fixupPost p).type = some "job") ∧
      (p.by_ ≠ "" → (fixupPost p).type = some (jsOrDefault p.type "story")) ∧
      SOut.post (fixupPost p) ∈ (storiesGenerator evs).getD [] := by
  intro p hp
  refine ⟨?_, ?_, ?_⟩
  · intro hby
    simp [fixupPost, hby]
  · intro hby
    simp [fixupPost, hby]
  · simp only [storiesGenerator, h, Option.map_some', Option.getD_some]
    exact List.mem_append_left _ (List.mem_map_of_mem _ hp)

/-- Witness for `empty_author_is_job`: a two-record pass, the first record
with author `alice`, the second sealed with no author text — instantiated at
the author-less second record. -/
theorem empty_author_is_job_witness :
    ((freshPost 2 none).by_ = "" → (fixupPost (freshPost 2 none)).type = some "job") ∧
    ((freshPost 2 none).by_ ≠ "" → (fixupPost (freshPost 2 none)).type =
      some (jsOrDefault (freshPost 2 none).type "story")) ∧
    SOut.post (fixupPost (freshPost 2 none)) ∈
      (storiesGenerator [SEvent.athingStart 1, SEvent.hnuserText "alice",
        SEvent.athingStart 2, SEvent.yclinksEl]).getD [] :=
  empty_author_is_job
    [SEvent.athingStart 1, SEvent.hnuserText "alice",
      SEvent.athingStart 2, SEvent.yclinksEl]
    ⟨some (freshPost 2 none),
     [{ freshPost 1 none with by_ := "alice" }, freshPost 2 none], none⟩ rfl
    (freshPost 2 none)
    (List.mem_cons_of_mem _ (List.mem_singleton_self _))

/-! ## C7: deleted comments and body normalization

The scraper's comment literal never sets `deleted`, and no handler touches
it, so every comment handed to `fixComment` has `deleted` unset; `fixComment`
then sets it exactly on blank bodies. -/

theorem stepComm_deleted_none {c c' : Option ACommentM} {ds : List ACommentM}
    {e : CommEvent} (h : stepComm c e = some (c', ds))
    (hc : ∀ cm, c = some cm → cm.deleted = none) :
    (∀ cm, c' = some cm → cm.deleted = none) ∧ ∀ cm ∈ ds, cm.deleted = none := by
  cases e with
  | comtrStart id =>
      simp only [stepComm, Option.some.injEq, Prod.mk.injEq] at h
      obtain ⟨h1, h2⟩ := h
      subst h1
      constructor
      · intro cm hcm
        simp only [Option.some.injEq] at hcm
        subst hcm
        rfl
      · intro cm hcm
        cases hcc : c with
        | none => rw [hcc] at h2; subst h2; cases hcm
        | some c0 =>
            rw [hcc] at h2
            subst h2
            simp only [List.mem_singleton] at hcm
            subst hcm
            exact hc _ hcc
  | indWidthEl w =>
      simp only [stepComm, Option.map_eq_some'] at h
      obtain ⟨cm0, hcm0, heq⟩ := h
      obtain ⟨h1, h2⟩ := Prod.mk.injEq .. ▸ heq
      subst h1; subst h2
      exact ⟨fun cm hcm => by cases hcm; exact hc cm0 hcm0, fun cm hcm => by cases hcm⟩
  | hnuserText s =>
      simp only [stepComm, Option.map_eq_some'] at h
      obtain ⟨cm0, hcm0, heq⟩ := h
      obtain ⟨h1, h2⟩ := Prod.mk.injEq .. ▸ heq
      subst h1; subst h2
      exact ⟨fun cm hcm => by cases hcm; exact hc cm0 hcm0, fun cm hcm => by cases hcm⟩
  | ageText s =>
      simp only [stepComm, Option.map_eq_some'] at h
      obtain ⟨cm0, hcm0, heq⟩ := h
      obtain ⟨h1, h2⟩ := Prod.mk.injEq .. ▸ heq
      subst h1; subst h2
      exact ⟨fun cm hcm => by cases hcm; exact hc cm0 hcm0, fun cm hcm => by cases hcm⟩
  | parLinkEl href =>
      simp only [stepComm, Option.map_eq_some'] at h
      obtain ⟨cm0, hcm0, heq⟩ := h
      obtain ⟨h1, h2⟩ := Prod.mk.injEq .. ▸ heq
      subst h1; subst h2
      exact ⟨fun cm hcm => by cases hcm; exact hc cm0 hcm0, fun cm hcm => by cases hcm⟩
  | storyLinkEl href =>
      simp only [stepComm, Option.map_eq_some'] at h
      obtain ⟨cm0, hcm0, heq⟩ := h
      obtain ⟨h1, h2⟩ := Prod.mk.injEq .. ▸ heq
      subst h1; subst h2
      exact ⟨fun cm hcm => by cases hcm; exact hc cm0 hcm0, fun cm hcm => by cases hcm⟩
  | storyLinkText s =>
      simp only [stepComm, Option.map_eq_some'] at h
      obtain ⟨cm0, hcm0, heq⟩ := h
      obtain ⟨h1, h2⟩ := Prod.mk.injEq .. ▸ heq
      subst h1; subst h2
      exact ⟨fun cm hcm => by cases hcm; exact hc cm0 hcm0, fun cm hcm => by cases hcm⟩
  | commtextEl cls =>
      simp only [stepComm, Option.map_eq_some'] at h
      obtain ⟨cm0, hcm0, heq⟩ := h
      obtain ⟨h1, h2⟩ := Prod.mk.injEq .. ▸ heq
      subst h1; subst h2
      exact ⟨fun cm hcm => by cases hcm; exact hc cm0 hcm0, fun cm hcm => by cases hcm⟩
  | commtextText s =>
      simp only [stepComm, Option.map_eq_some'] at h
      obtain ⟨cm0, hcm0, heq⟩ := h
      obtain ⟨h1, h2⟩ := Prod.mk.injEq .. ▸ heq
      subst h1; subst h2
      exact ⟨fun cm hcm => by cases hcm; exact hc cm0 hcm0, fun cm hcm => by cases hcm⟩
  | commtextChildOpen tag attrs =>
      simp only [stepComm, Option.map_eq_some'] at h
      obtain ⟨cm0, hcm0, heq⟩ := h
      obtain ⟨h1, h2⟩ := Prod.mk.injEq .. ▸ heq
      subst h1; subst h2
      exact ⟨fun cm hcm => by cases hcm; exact hc cm0 hcm0, fun cm hcm => by cases hcm⟩
  | commtextChildClose tag =>
      simp only [stepComm, Option.map_eq_some'] at h
      obtain ⟨cm0, hcm0, heq⟩ := h
      obtain ⟨h1, h2⟩ := Prod.mk.injEq .. ▸ heq
      subst h1; subst h2
      exact ⟨fun cm hcm => by cases hcm; exact hc cm0 hcm0, fun cm hcm => by cases hcm⟩
  | replyEl =>
      simp only [stepComm, Option.some.injEq, Prod.mk.injEq] at h
      obtain ⟨h1, h2⟩ := h
      subst h1; subst h2
      exact ⟨hc, fun cm hcm => by cases hcm⟩
  | yclinksEl =>
      simp only [stepComm, Option.some.injEq, Prod.mk.injEq] at h
      obtain ⟨h1, h2⟩ := h
      subst h1
      refine ⟨hc, ?_⟩
      intro cm hcm
      cases hcc : c with
      | none => rw [hcc] at h2; subst h2; cases hcm
      | some c0 =>
          rw [hcc] at h2
          subst h2
          simp only [List.mem_singleton] at hcm
          subst hcm
          exact hc _ hcc

theorem stepItem_plain {st st' : IState} {e : IEvent} (h : stepItem st e = some st')
    (h1 : e ≠ IEvent.commentTreeEl) (h2 : ∀ ce, e ≠ IEvent.comm ce) :
    st'.comment = st.comment ∧ st'.dispatched = st.dispatched := by
  cases e <;>
    first
      | exact absurd rfl h1
      | exact absurd rfl (h2 _)
      | (simp only [stepItem, Option.some.injEq] at h
         subst h
         exact ⟨rfl, rfl⟩)
      | (simp only [stepItem] at h
         split_ifs at h <;>
           (simp only [Option.some.injEq] at h
            subst h
            exact ⟨rfl, rfl⟩))

theorem runThreadsFrom_deleted_none : ∀ (evs : List TEvent) (st st' : TState),
    runThreadsFrom st evs = some st' →
    (∀ cm, st.comment = some cm → cm.deleted = none) →
    (∀ cm ∈ st.dispatched, cm.deleted = none) →
    (∀ cm ∈ st'.dispatched, cm.deleted = none) ∧
      ∀ cm, st'.comment = some cm → cm.deleted = none := by
  intro evs
  induction evs with
  | nil =>
      intro st st' h hc hd
      simp only [runThreadsFrom, Option.some.injEq] at h
      subst h
      exact ⟨hd, hc⟩
  | cons e rest ih =>
      intro st st' h hc hd
      simp only [runThreadsFrom, Option.bind_eq_some] at h
      obtain ⟨st1, hs, hrest⟩ := h
      cases e with
      | comm ce =>
          simp only [stepThreads, Option.map_eq_some'] at hs
          obtain ⟨r, hr, rfl⟩ := hs
          obtain ⟨rc, rds⟩ := r
          have hstep := stepComm_deleted_none hr hc
          refine ih _ _ hrest hstep.1 ?_
          intro cm hcm
          simp only [List.mem_append] at hcm
          rcases hcm with hcm | hcm
          · exact hd cm hcm
          · exact hstep.2 cm hcm
      | moreLinkEl href =>
          simp only [stepThreads, Option.some.injEq] at hs
          subst hs
          exact ih _ _ hrest hc hd

theorem runItemFrom_deleted_none : ∀ (evs : List IEvent) (st st' : IState),
    runItemFrom st evs = some st' →
    (∀ cm, st.comment = some cm → cm.deleted = none) →
    (∀ d ∈ st.dispatched, ∀ cm, d = DataEvent.comm cm → cm.deleted = none) →
    (∀ d ∈ st'.dispatched, ∀ cm, d = DataEvent.comm cm → cm.deleted = none) ∧
      ∀ cm, st'.comment = some cm → cm.deleted = none := by
  intro evs
  induction evs with
  | nil =>
      intro st st' h hc hd
      simp only [runItemFrom, Option.some.injEq] at h
      subst h
      exact ⟨hd, hc⟩
  | cons e rest ih =>
      intro st st' h hc hd
      simp only [runItemFrom, Option.bind_eq_some] at h
      obtain ⟨st1, hs, hrest⟩ := h
      cases he : e with
      | comm ce =>
          subst he
          simp only [stepItem, Option.map_eq_some'] at hs
          obtain ⟨r, hr, rfl⟩ := hs
          obtain ⟨rc, rds⟩ := r
          have hstep := stepComm_deleted_none hr hc
          refine ih _ _ hrest hstep.1 ?_
          intro d hdm cm hcm
          simp only [List.mem_append] at hdm
          rcases hdm with hdm | hdm
          · exact hd d hdm cm hcm
          · subst hcm
            simp only [List.mem_map] at hdm
            obtain ⟨cm0, hcm0, hinj⟩ := hdm
            cases hinj
            exact hstep.2 _ hcm0
      | commentTreeEl =>
          subst he
          simp only [stepItem, Option.some.injEq] at hs
          subst hs
          refine ih _ _ hrest hc ?_
          intro d hdm cm hcm
          simp only [List.mem_append, List.mem_singleton] at hdm
          rcases hdm with hdm | hdm
          · exact hd d hdm cm hcm
          · subst hdm
            cases hcm
      | _ =>
          subst he
          have hplain := stepItem_plain hs (by intro hx; cases hx) (by intro ce hx; cases hx)
          refine ih _ _ hrest ?_ ?_
          · rw [hplain.1]; exact hc
          · rw [hplain.2]; exact hd

/-- C7: `deleted = true` exactly on blank bodies.  First part: for every
comment with `deleted` still unset — as every comment handed to the consumer
is — `fixComment` marks it `deleted = true` iff its reconstructed body is
empty or whitespace-only, replacing the body by the fixed placeholder
`' [flagged] '` exactly in that case, and otherwise passes the non-empty body
through the normalization (`blockquotify` after the `<p>` block wrap), leaving
`deleted` unset.  Second and third parts: every comment the threads or item
pass dispatches indeed still has `deleted` unset when it reaches
`fixComment`. -/
theorem deleted_iff_blank_body :
    (∀ c : ACommentM, c.deleted = none →
      (((fixComment c).deleted = some true) ↔ jsTrim c.text = "") ∧
      (jsTrim c.text = "" → (fixComment c).text = " [flagged] ") ∧
      (jsTrim c.text ≠ "" →
        (fixComment c).text = blockquotify ("<p>" ++ c.text) ∧
          (fixComment c).deleted = none)) ∧
    (∀ (evs : List TEvent) (st : TState), runThreads evs = some st →
      ∀ cm ∈ st.dispatched, cm.deleted = none) ∧
    (∀ (evs : List IEvent) (st : IState), runItem evs = some st →
      ∀ d ∈ st.dispatched, ∀ cm, d = DataEvent.comm cm → cm.deleted = none) := by
  refine ⟨?_, ?_, ?_⟩
  · intro c hdel
    unfold fixComment
    split_ifs with ht
    · refine ⟨?_, fun hblank => absurd hblank ht, fun _ => ⟨rfl, hdel⟩⟩
      simp only [hdel]
      constructor
      · intro hx; cases hx
      · intro hx; exact absurd hx ht
    · push_neg at ht
      exact ⟨⟨fun _ => ht, fun _ => rfl⟩, fun _ => rfl, fun hx => absurd ht hx⟩
  · intro evs st h
    exact (runThreadsFrom_deleted_none evs initT st h (by intro cm hcm; cases hcm)
      (by intro cm hcm; cases hcm)).1
  · intro evs st h
    exact (runItemFrom_deleted_none evs initI st h (by intro cm hcm; cases hcm)
      (by intro d hdm; cases hdm)).1

/-- Witness for `deleted_iff_blank_body`: a freshly started (hence blank)
comment, a threads pass dispatching one comment via the terminal marker, and
the analogous item-page pass. -/
theorem deleted_iff_blank_body_witness :
    ((((fixComment (freshComment 3)).deleted = some true) ↔
        jsTrim (freshComment 3).text = "") ∧
      (jsTrim (freshComment 3).text = "" →
        (fixComment (freshComment 3)).text = " [flagged] ") ∧
      (jsTrim (freshComment 3).text ≠ "" →
        (fixComment (freshComment 3)).text =
            blockquotify ("<p>" ++ (freshComment 3).text) ∧
          (fixComment (freshComment 3)).deleted = none)) ∧
    (∀ cm ∈ (⟨some (freshComment 5), [freshComment 5], none⟩ : TState).dispatched,
      cm.deleted = none) ∧
    (∀ d ∈ (⟨initItemPost, some (freshComment 5),
        [DataEvent.comm (freshComment 5)], none⟩ : IState).dispatched,
      ∀ cm, d = DataEvent.comm cm → cm.deleted = none) :=
  ⟨deleted_iff_blank_body.1 (freshComment 3) rfl,
   deleted_iff_blank_body.2.1
     [TEvent.comm (CommEvent.comtrStart 5), TEvent.comm CommEvent.yclinksEl] _ rfl,
   deleted_iff_blank_body.2.2
     [IEvent.comm (CommEvent.comtrStart 5), IEvent.comm CommEvent.yclinksEl] _ rfl⟩

/-! ## C9 / C10: the item-page pass -/

theorem runItemFrom_append (a b : List IEvent) : ∀ st : IState,
    runItemFrom st (a ++ b) =
      (runItemFrom st a).bind (fun st1 => runItemFrom st1 b) := by
  induction a with
  | nil => intro st; rfl
  | cons e rest ih =>
      intro st
      simp only [List.cons_append, runItemFrom, Option.bind_assoc]
      congr 1
      funext st1
      exact ih st1

theorem stepComm_none {e : CommEvent} {r : Option ACommentM × List ACommentM}
    (h : stepComm none e = some r)
    (hne : ∀ id, e ≠ CommEvent.comtrStart id) : r = (none, []) := by
  cases e with
  | comtrStart id => exact absurd rfl (hne id)
  | indWidthEl w => cases h
  | hnuserText s => cases h
  | ageText s => cases h
  | parLinkEl href => cases h
  | storyLinkEl href => cases h
  | storyLinkText s => cases h
  | commtextEl cls => cases h
  | commtextText s => cases h
  | commtextChildOpen tag attrs => cases h
  | commtextChildClose tag => cases h
  | replyEl => simp only [stepComm, Option.some.injEq] at h; exact h.symm
  | yclinksEl => simp only [stepComm, Option.some.injEq] at h; exact h.symm

theorem runItemFrom_quiet : ∀ (evs : List IEvent),
    (∀ e ∈ evs, e ≠ IEvent.commentTreeEl ∧
      ∀ id, e ≠ IEvent.comm (CommEvent.comtrStart id)) →
    ∀ st st' : IState, st.comment = none → runItemFrom st evs = some st' →
    st'.comment = none ∧ st'.dispatched = st.dispatched := by
  intro evs
  induction evs with
  | nil =>
      intro _ st st' hc h
      simp only [runItemFrom, Option.some.injEq] at h
      subst h
      exact ⟨hc, rfl⟩
  | cons e rest ih =>
      intro hq st st' hc h
      simp only [runItemFrom, Option.bind_eq_some] at h
      obtain ⟨st1, hs, hrest⟩ := h
      have hqe := hq e (List.mem_cons_self e rest)
      have hqrest : ∀ e' ∈ rest, e' ≠ IEvent.commentTreeEl ∧
          ∀ id, e' ≠ IEvent.comm (CommEvent.comtrStart id) :=
        fun e' he' => hq e' (List.mem_cons_of_mem e he')
      cases he : e with
      | comm ce =>
          subst he
          simp only [stepItem, Option.map_eq_some'] at hs
          obtain ⟨r, hr, rfl⟩ := hs
          rw [hc] at hr
          have hr0 : r = (none, []) := stepComm_none hr (by
            intro id hx
            exact hqe.2 id (by rw [hx]))
          subst hr0
          have hres := ih hqrest _ _ rfl hrest
          refine ⟨hres.1, ?_⟩
          rw [hres.2]
          simp
      | commentTreeEl => subst he; exact absurd rfl hqe.1
      | _ =>
          subst he
          have hplain := stepItem_plain hs (by intro hx; cases hx) (by intro ce hx; cases hx)
          have := ih hqrest st1 st' (by rw [hplain.1]; exact hc) hrest
          exact ⟨this.1, by rw [this.2, hplain.2]⟩

theorem runItemFrom_comm_only : ∀ (evs : List IEvent),
    (∀ e ∈ evs, e ≠ IEvent.commentTreeEl) →
    ∀ st st' : IState, runItemFrom st evs = some st' →
    ∃ cs : List ACommentM, st'.dispatched = st.dispatched ++ cs.map DataEvent.comm := by
  intro evs
  induction evs with
  | nil =>
      intro _ st st' h
      simp only [runItemFrom, Option.some.injEq] at h
      subst h
      exact ⟨[], by simp⟩
  | cons e rest ih =>
      intro hq st st' h
      simp only [runItemFrom, Option.bind_eq_some] at h
      obtain ⟨st1, hs, hrest⟩ := h
      have hqrest : ∀ e' ∈ rest, e' ≠ IEvent.commentTreeEl :=
        fun e' he' => hq e' (List.mem_cons_of_mem e he')
      cases he : e with
      | comm ce =>
          subst he
          simp only [stepItem, Option.map_eq_some'] at hs
          obtain ⟨r, hr, rfl⟩ := hs
          obtain ⟨cs, hcs⟩ := ih hqrest _ _ hrest
          exact ⟨r.2 ++ cs, by simp [hcs, List.map_append]⟩
      | commentTreeEl => subst he; exact absurd rfl (hq _ (List.mem_cons_self _ _))
      | _ =>
          subst he
          have hplain := stepItem_plain hs (by intro hx; cases hx) (by intro ce hx; cases hx)
          obtain ⟨cs, hcs⟩ := ih hqrest _ _ hrest
          exact ⟨cs, by rw [hcs, hplain.2]⟩

theorem kidsOfDispatched_comms (pid : Option Int) (cs : List ACommentM) :
    kidsOfDispatched pid (cs.map DataEvent.comm) = some (cs.map (fixKid pid)) := by
  induction cs with
  | nil => rfl
  | cons c rest ih =>
      simp only [List.map_cons, kidsOfDispatched, kidOfData, Option.some_bind, ih,
        Option.map_some']

/-- C9: in an item-page pass whose notifications consist of a header phase
(no `.comment-tree` element, no comment start), the single `.comment-tree`
element, and a comment phase (no further `.comment-tree`), the header is
dispatched exactly once and before any comment — the dispatch sequence is
`header :: comments` — and the consumer view built on that same run exposes
exactly the remaining dispatches of the same channel as `post.kids`: the
comment sequence is a continuation of the one pass, not a second one. -/
theorem header_before_comments (pre post : List IEvent) (st : IState)
    (hpre : ∀ e ∈ pre, e ≠ IEvent.commentTreeEl ∧
      ∀ id, e ≠ IEvent.comm (CommEvent.comtrStart id))
    (hpost : ∀ e ∈ post, e ≠ IEvent.commentTreeEl)
    (h : runItem (pre ++ IEvent.commentTreeEl :: post) = some st) :
    ∃ cs : List ACommentM,
      st.dispatched = DataEvent.header :: cs.map DataEvent.comm ∧
      commentsGenerator (pre ++ IEvent.commentTreeEl :: post) =
        some ⟨fixPostText st.post, cs.map (fixKid st.post.id), st.more.getD ""⟩ := by
  have h0 := h
  rw [runItem, runItemFrom_append] at h
  simp only [Option.bind_eq_some] at h
  obtain ⟨st1, hpre_run, hrest⟩ := h
  have hquiet := runItemFrom_quiet pre hpre initI st1 rfl hpre_run
  simp only [runItemFrom, stepItem, Option.some_bind] at hrest
  obtain ⟨cs, hcs⟩ := runItemFrom_comm_only post hpost _ st hrest
  rw [hquiet.2] at hcs
  have hdisp : st.dispatched = DataEvent.header :: cs.map DataEvent.comm := by
    simpa using hcs
  refine ⟨cs, hdisp, ?_⟩
  simp only [commentsGenerator, h0, Option.some_bind, hdisp, List.drop_one,
    List.tail_cons, kidsOfDispatched_comms, Option.map_some']

/-- Witness for `header_before_comments`: a pass with one header-phase
notification, the `.comment-tree` element, then one comment sealed by the
terminal marker. -/
theorem header_before_comments_witness :
    ∃ cs : List ACommentM,
      [DataEvent.header, DataEvent.comm (freshComment 5)] =
        DataEvent.header :: cs.map DataEvent.comm ∧
      commentsGenerator [IEvent.fatAthingEl 7, IEvent.commentTreeEl,
          IEvent.comm (CommEvent.comtrStart 5), IEvent.comm CommEvent.yclinksEl] =
        some ⟨fixPostText { initItemPost with id := some 7 },
          cs.map (fixKid (some 7)), ""⟩ :=
  header_before_comments [IEvent.fatAthingEl 7]
    [IEvent.comm (CommEvent.comtrStart 5), IEvent.comm CommEvent.yclinksEl]
    ⟨{ initItemPost with id := some 7 }, some (freshComment 5),
      [DataEvent.header, DataEvent.comm (freshComment 5)], none⟩
    (by
      intro e he
      simp only [List.mem_singleton] at he
      subst he
      constructor
      · intro hx; cases hx
      · intro id hx; cases hx)
    (by
      intro e he
      simp only [List.mem_cons, List.not_mem_nil, or_false] at he
      rcases he with rfl | rfl <;> (intro hx; cases hx))
    rfl

theorem fixComment_story (c : ACommentM) : (fixComment c).story = c.story := by
  unfold fixComment
  split_ifs <;> rfl

theorem fixPostText_id (p : APostM) : (fixPostText p).id = p.id := by
  unfold fixPostText
  split_ifs <;> rfl

theorem kidsOfDispatched_story (pid : Option Int) :
    ∀ (ds : List DataEvent) (ks : List ACommentM),
    kidsOfDispatched pid ds = some ks → ∀ k ∈ ks, k.story = pid := by
  intro ds
  induction ds with
  | nil =>
      intro ks h k hk
      simp only [kidsOfDispatched, Option.some.injEq] at h
      subst h
      cases hk
  | cons d rest ih =>
      intro ks h k hk
      simp only [kidsOfDispatched, Option.bind_eq_some] at h
      obtain ⟨k0, hk0, h2⟩ := h
      simp only [Option.map_eq_some'] at h2
      obtain ⟨ks', hks', rfl⟩ := h2
      rcases List.mem_cons.mp hk with rfl | hk'
      · cases d with
        | header => cases hk0
        | comm c =>
            simp only [kidOfData, Option.some.injEq] at hk0
            subst hk0
            show (fixComment { c with story := pid }).story = pid
            rw [fixComment_story]
      · exact ih ks' hks' k hk'

/-- C10: every comment exposed as one of `post.kids` by the item-page pass
carries `story = post.id` — `comment.story = post.id` runs at emission time
and overwrites whatever story reference the comment's own markup yielded. -/
theorem kid_story_overwritten (evs : List IEvent) (out : ItemOut)
    (h : commentsGenerator evs = some out) :
    ∀ k ∈ out.kids, k.story = out.post.id := by
  simp only [commentsGenerator, Option.bind_eq_some] at h
  obtain ⟨st, hrun, h2⟩ := h
  simp only [Option.map_eq_some'] at h2
  obtain ⟨kids, hkids, rfl⟩ := h2
  intro k hk
  show k.story = (fixPostText st.post).id
  rw [fixPostText_id]
  exact kidsOfDispatched_story st.post.id _ kids hkids k hk

/-- Witness for `kid_story_overwritten`: a pass whose comment scrapes a story
link pointing at item 999, yet is exposed with `story = some 7`, the header's
id. -/
theorem kid_story_overwritten_witness :
    (fixKid (some 7) { freshComment 5 with story := extractId "item?id=999" }).story =
      (fixPostText { initItemPost with id := some 7 }).id :=
  kid_story_overwritten [IEvent.fatAthingEl 7, IEvent.commentTreeEl,
    IEvent.comm (CommEvent.comtrStart 5), IEvent.comm (CommEvent.storyLinkEl "item?id=999"),
    IEvent.comm CommEvent.yclinksEl]
    ⟨fixPostText { initItemPost with id := some 7 },
      [fixKid (some 7) { freshComment 5 with story := extractId "item?id=999" }], ""⟩ rfl
    (fixKid (some 7) { freshComment 5 with story := extractId "item?id=999" })
    (List.mem_singleton_self _)

end WorkerNews
